import Mathlib

/-
Formal model of the permission-gated hierarchical value store implemented in
src/store.ts (class `Store`), together with proofs about its traversal,
permission enforcement, lazy ("deferred producer") evaluation, plain-object
promotion and value-admission behaviour.

Modelling conventions (shallow embedding of the TypeScript source):
* JavaScript mutation of the node tree is modelled by explicit state passing:
  every operation returns the (possibly updated) root of the store it was
  invoked on, next to its result.  The source's heap is tree-shaped (a node
  exclusively owns its children), so reinstalling an updated child under the
  key it was reached through is an exact model of in-place mutation.
* A deferred producer (a stored function) is modelled by an identifier `id`;
  invoking it (`value.call(ctx)` in the source) yields `env id` for a fixed
  environment `env : Nat → SValue`.  An `Eff` record logs every producer
  invocation and every `new Store()` allocation, so "evaluated at most once" /
  "creates only one node" become statements about the log.
* The five mutually recursive source procedures (`ensurePath`, `write`,
  `writeEntries`, `convertPlainObjectToStore`, `readSegments`) are embedded as
  the five branches of a single interpreter `run` over a command type `Cmd`,
  structurally recursive on a fuel parameter.  Fuel is a modelling artifact:
  running out of fuel yields the distinguished error `Err.outOfFuel`, and every
  theorem is stated either for sufficient fuel or conditionally on a
  non-fuel outcome.  Each branch is a line-by-line translation of the
  corresponding source function.
* `SValue.other` stands for any runtime value outside the declared
  `StoreValue` union (a symbol, a non-JSON class instance, ...): it is exactly
  the class of values for which the source's admission guard
  `Store.isStoreValue` returns false.
-/

namespace StoreTS

/-- Permission tokens, src/restrict.ts: `type Permission = 'r' | 'w' | 'rw' | 'none'`. -/
inductive Perm where
  | r : Perm
  | w : Perm
  | rw : Perm
  | none : Perm

/-- JSON values, src/json-types.ts (`JSONPrimitive | JSONArray | JSONObject`). -/
inductive JValue where
  | str (v : String) : JValue
  | num (v : Int) : JValue
  | bool (v : Bool) : JValue
  | null : JValue
  | arr (elems : List JValue) : JValue
  | obj (props : List (String × JValue)) : JValue

mutual

/-- The `StoreValue` union of src/store.ts:
`JSONObject | Store | JSONPrimitive | JSONArray | undefined | (() => StoreResult)`.
`fn id arity` is a stored function (`typeof x === 'function'`); invoking it
returns `env id`.  `other` is any runtime value outside the union. -/
inductive SValue where
  | undef : SValue
  | str (v : String) : SValue
  | num (v : Int) : SValue
  | boolv (v : Bool) : SValue
  | nullv : SValue
  | arr (elems : List JValue) : SValue
  | obj (props : List (String × JValue)) : SValue
  | node (s : Store) : SValue
  | fn (id arity : Nat) : SValue
  | other : SValue

/-- A store node, src/store.ts class `Store`: a `defaultPolicy` fixed at
construction, the per-field permission metadata declared via `@Restrict`
(src/restrict.ts, resolved by `getPermissionMetadata`), and the field map
`data : Record<string, StoreValue>`.  An entry `(k, .undef)` models a property
explicitly set to `undefined` (present in `Object.keys`), while a key missing
from `data` models an absent property. -/
inductive Store where
  | mk (defaultPolicy : Perm) (perms : List (String × Perm)) (data : List (String × SValue)) : Store

end

def Store.defaultPolicy : Store → Perm
  | .mk p _ _ => p

def Store.perms : Store → List (String × Perm)
  | .mk _ pm _ => pm

def Store.data : Store → List (String × SValue)
  | .mk _ _ d => d

/-- Lookup of a property in a field map; an absent key reads as `undefined`,
exactly like `this.data[key]` in the source. -/
def lookupField : List (String × SValue) → String → SValue
  | [], _ => .undef
  | (k', v') :: rest, k => if k' = k then v' else lookupField rest k

/-- Property assignment `this.data[key] = value`: replaces an existing binding
in place (JS keeps the original slot of an existing property) or appends a new
binding (JS insertion order). -/
def updateField : List (String × SValue) → String → SValue → List (String × SValue)
  | [], k, v => [(k, v)]
  | (k', v') :: rest, k, v => if k' = k then (k, v) :: rest else (k', v') :: updateField rest k v

/-- `Store.getField(key)` of the source. -/
def Store.getField (s : Store) (k : String) : SValue :=
  lookupField s.data k

/-- Raw field-map update (the heap effect of `this.data[key] = value`, without
the admission guard — the guarded assignment is `setFieldOp` below).  Also used
to reinstall an updated child node under the key it was reached through, which
models mutation through the alias the source holds. -/
def Store.withField : Store → String → SValue → Store
  | .mk p pm d, k, v => .mk p pm (updateField d k v)

/-- `getPermissionMetadata` of src/restrict.ts: the declared `@Restrict`
annotation for a key, if any. -/
def getPermissionMetadata : List (String × Perm) → String → Option Perm
  | [], _ => Option.none
  | (k', p) :: rest, k => if k' = k then some p else getPermissionMetadata rest k

/-- `Store.getPermissionForKey`: the declared annotation, else the node's
default policy (`perm ?? this.defaultPolicy`). -/
def Store.getPermissionForKey (s : Store) (k : String) : Perm :=
  match getPermissionMetadata s.perms k with
  | some p => p
  | Option.none => s.defaultPolicy

/-- `Store.allowedToRead`: `p === 'r' || p === 'rw'`. -/
def Store.allowedToRead (s : Store) (k : String) : Bool :=
  match s.getPermissionForKey k with
  | .r => true
  | .rw => true
  | _ => false

/-- `Store.allowedToWrite`: `p === 'w' || p === 'rw'`. -/
def Store.allowedToWrite (s : Store) (k : String) : Bool :=
  match s.getPermissionForKey k with
  | .w => true
  | .rw => true
  | _ => false

/-- `new Store()`: default policy `'rw'`, no declared annotations, empty data. -/
def emptyStore : Store := .mk .rw [] []

/-- The admission guard `Store.isStoreValue` of the source, branch by branch:
`undefined`, a `Store` instance and any `typeof x === 'function'` value are
accepted (note: the function branch accepts a function of ANY arity); an array
whose elements are JSON values and a plain object whose values are JSON values
are accepted — in this embedding `.arr` / `.obj` payloads are `JValue`s by
construction, so `x.every(isJSONValue)` / `isJSONValue(x)` hold; JSON
primitives are accepted; `.other` stands for the remaining runtime values
(symbol, non-JSON instance, ...), for which every source branch returns false. -/
def Store.isStoreValue : SValue → Bool
  | .undef => true
  | .node _ => true
  | .fn _ _ => true
  | .arr _ => true
  | .obj _ => true
  | .str _ => true
  | .num _ => true
  | .boolv _ => true
  | .nullv => true
  | .other => false

/-- The `StoreResult` type of the source
(`Store | JSONPrimitive | JSONArray | undefined`): the declared return type of
a deferred producer (`() => StoreResult`).  Holds exactly of the stored values
that are neither a plain object, nor a function, nor outside the union. -/
def isStoreResult : SValue → Bool
  | .undef => true
  | .str _ => true
  | .num _ => true
  | .boolv _ => true
  | .nullv => true
  | .arr _ => true
  | .node _ => true
  | _ => false

/-- Error taxonomy, src/errors.ts.  `invalidValue` carries the key of the
rejected assignment, `permissionDenied` carries `{kind, key}`, `pathTraversal`
carries `{message, path}`.  `outOfFuel` is the modelling artifact for
exhausted fuel (no source counterpart). -/
inductive AccessKind where
  | read : AccessKind
  | write : AccessKind

inductive Err where
  | permissionDenied (kind : AccessKind) (key : String) : Err
  | pathTraversal (msg : String) (path : String) : Err
  | invalidValue (key : String) : Err
  | invalidPath (msg : String) : Err
  | outOfFuel : Err

/-- Instrumentation: the order-preserving log of producer invocations (by
producer id) and the number of `new Store()` allocations performed by the
engine.  Pure bookkeeping — no source counterpart. -/
structure Eff where
  prodCalls : List Nat
  nodesCreated : Nat

def Eff.logCall (e : Eff) (id : Nat) : Eff :=
  { e with prodCalls := e.prodCalls ++ [id] }

def Eff.newNode (e : Eff) : Eff :=
  { e with nodesCreated := e.nodesCreated + 1 }

/-- `Store.setField(key, value)`: runs the admission guard, then assigns.
Throwing leaves the node untouched. -/
def setFieldOp (k : String) (v : SValue) (s : Store) : Except Err Store :=
  if Store.isStoreValue v then .ok (s.withField k v) else .error (.invalidValue k)

/-- JavaScript `path.split(':')` for the one-character separator `':'`:
always yields at least one (possibly empty) segment; `"".split(':') === [""]`. -/
def splitCharAux (sep : Char) : List Char → List Char → List String
  | [], acc => [String.mk acc.reverse]
  | c :: cs, acc =>
    if c = sep then String.mk acc.reverse :: splitCharAux sep cs []
    else splitCharAux sep cs (c :: acc)

def splitColon (p : String) : List String :=
  splitCharAux ':' p.toList []

/-- `value = jsonValue` as a stored value (writing a `JSONValue` through
`writeEntries`). -/
def jvalToSValue : JValue → SValue
  | .str v => .str v
  | .num v => .num v
  | .bool v => .boolv v
  | .null => .nullv
  | .arr xs => .arr xs
  | .obj props => .obj props

/-- The producer-evaluation step shared by `readSegments` and `ensurePath`:
if the current value is a function, invoke it (`value.call(ctx)`), store the
result back under the key (`ctx.setField(key, value)` — guarded, so a
non-conforming produced value throws), and continue with the result. -/
def evalProducerStep (env : Nat → SValue) (k : String) (s : Store) (e : Eff) :
    (Except Err (Store × SValue)) × Eff :=
  match Store.getField s k with
  | .fn id _ =>
    match setFieldOp k (env id) s with
    | .error er => (.error er, e.logCall id)
    | .ok s₁ => (.ok (s₁, env id), e.logCall id)
  | v => (.ok (s, v), e)

/-- The five mutually recursive procedures of the source, defunctionalized as
commands of a single fuel-indexed interpreter `run`. -/
inductive Cmd where
  | ensurePath (segments : List String) (current : Store) : Cmd
  | write (path : String) (value : SValue) (root : Store) : Cmd
  | writeEntries (entries : List (String × JValue)) (root : Store) : Cmd
  | convertPlainObjectToStore (props : List (String × JValue)) : Cmd
  | readSegments (segments : List String) (ctx : Store) : Cmd

/-- The store a command starts from (used only to give the out-of-fuel outcome
a state component). -/
def Cmd.startStore : Cmd → Store
  | .ensurePath _ c => c
  | .write _ _ r => r
  | .writeEntries _ r => r
  | .convertPlainObjectToStore _ => emptyStore
  | .readSegments _ c => c

/-- Outcome of a run: the result (or thrown error), the updated store the
command was running on (for `convertPlainObjectToStore`, the newly built
store), and the instrumentation record.  JavaScript exceptions do not roll
back heap mutations, so the store component is meaningful on errors too. -/
structure RunRes where
  res : Except Err SValue
  st : Store
  eff : Eff

/-- Pure relocation helper used by the `write` branch: after `ensurePath` has
materialized the segment path as nodes, apply `g` to the destination node and
rebuild the tree along the path.  A non-node on the way yields the source's
`PathTraversalError('Cannot write through non-Store path', segments.join(':'))`
— this is the model of the `!(parent instanceof Store)` check (unreachable
after a successful `ensurePath`). -/
def modifyAtPathM (g : Store → Except Err Store) (errPath : String) :
    Store → List String → Except Err Store
  | s, [] => g s
  | s, k :: ks =>
    match Store.getField s k with
    | .node n =>
      match modifyAtPathM g errPath n ks with
      | .ok n' => .ok (s.withField k (.node n'))
      | .error er => .error er
    | _ => .error (.pathTraversal "Cannot write through non-Store path" errPath)

/-- The engine.  Branch `readSegments` translates `Store.readSegments`
(with the index-into-array recursion of the source rendered as recursion on
the remaining-segments suffix), `ensurePath` translates `Store.ensurePath`,
`write` translates `Store.write`, `writeEntries` translates
`Store.writeEntries` over the entry list, and `convertPlainObjectToStore`
translates `Store.convertPlainObjectToStore` (`new Store()` then
`writeEntries(obj)`).  Every recursive call consumes one unit of fuel. -/
def run (env : Nat → SValue) : Nat → Cmd → Eff → RunRes
  | 0, c, e => ⟨.error .outOfFuel, c.startStore, e⟩
  | f + 1, c, e =>
    match c with
    | .ensurePath segs cur =>
      match segs with
      | [] => ⟨.ok .undef, cur, e⟩
      | k :: ks =>
        -- if (!current.allowedToRead(key)) throw new PermissionDeniedError('read', key)
        if cur.allowedToRead k then
          -- let nextVal = current.getField(key); producer evaluation
          match evalProducerStep env k cur e with
          | (.error er, e₁) => ⟨.error er, cur, e₁⟩
          | (.ok (cur₁, v₁), e₁) =>
            -- if (nextVal === undefined) { write-check; nextVal = new Store(); setField }
            match
              (match v₁ with
               | .undef =>
                 if cur₁.allowedToWrite k then
                   match setFieldOp k (.node emptyStore) cur₁ with
                   | .error er => (Except.error er, e₁.newNode)
                   | .ok cur₂ => (Except.ok (cur₂, SValue.node emptyStore), e₁.newNode)
                 else (Except.error (Err.permissionDenied .write k), e₁)
               | v => (Except.ok (cur₁, v), e₁)) with
            | (.error er, e₂) => ⟨.error er, cur₁, e₂⟩
            | (.ok (cur₂, v₂), e₂) =>
              -- if (!(nextVal instanceof Store)) { promote plain object or throw }
              match v₂ with
              | .node n =>
                match run env f (.ensurePath ks n) e₂ with
                | ⟨res, n', e₃⟩ => ⟨res, cur₂.withField k (.node n'), e₃⟩
              | .obj o =>
                match run env f (.convertPlainObjectToStore o) e₂ with
                | ⟨.error er, _, e₃⟩ => ⟨.error er, cur₂, e₃⟩
                | ⟨.ok _, n, e₃⟩ =>
                  match setFieldOp k (.node n) cur₂ with
                  | .error er => ⟨.error er, cur₂, e₃⟩
                  | .ok cur₃ =>
                    match run env f (.ensurePath ks n) e₃ with
                    | ⟨res, n', e₄⟩ => ⟨res, cur₃.withField k (.node n'), e₄⟩
              | _ => ⟨.error (.pathTraversal "not a Store/object" k), cur₂, e₂⟩
        else ⟨.error (.permissionDenied .read k), cur, e⟩
    | .write p v root =>
      -- const segments = path.split(':'); const lastKey = segments.pop()
      let segs := splitColon p
      let initSegs := segs.dropLast
      match run env f (.ensurePath initSegs root) e with
      | ⟨.error er, root₁, e₁⟩ => ⟨.error er, root₁, e₁⟩
      | ⟨.ok _, root₁, e₁⟩ =>
        match segs.getLast? with
        | Option.none =>
          -- if (lastKey === undefined) throw new InvalidPathError(...)
          -- dead branch: String.split(':') never yields an empty array
          ⟨.error (.invalidPath "Cannot write to an empty path"), root₁, e₁⟩
        | some lastKey =>
          -- write-check at the destination node, then guarded setField
          match
            modifyAtPathM
              (fun parent =>
                if parent.allowedToWrite lastKey then setFieldOp lastKey v parent
                else .error (.permissionDenied .write lastKey))
              (String.intercalate ":" initSegs) root₁ initSegs with
          | .error er => ⟨.error er, root₁, e₁⟩
          | .ok root₂ => ⟨.ok v, root₂, e₁⟩
    | .writeEntries entries root =>
      -- for (const [k, v] of Object.entries(entries)) this.write(k, v)
      match entries with
      | [] => ⟨.ok .undef, root, e⟩
      | (k, v) :: rest =>
        match run env f (.write k (jvalToSValue v) root) e with
        | ⟨.error er, root₁, e₁⟩ => ⟨.error er, root₁, e₁⟩
        | ⟨.ok _, root₁, e₁⟩ => run env f (.writeEntries rest root₁) e₁
    | .convertPlainObjectToStore props =>
      -- const s = new Store(); s.writeEntries(obj); return s
      run env f (.writeEntries props emptyStore) (e.newNode)
    | .readSegments segs ctx =>
      match segs with
      | [] => ⟨.ok (.node ctx), ctx, e⟩   -- if (index >= segments.length) return ctx
      | k :: rest =>
        if ctx.allowedToRead k then
          match evalProducerStep env k ctx e with
          | (.error er, e₁) => ⟨.error er, ctx, e₁⟩
          | (.ok (ctx₁, v₁), e₁) =>
            match rest with
            | [] =>
              -- final segment: promote a plain object, else return the value as-is
              match v₁ with
              | .obj o =>
                match run env f (.convertPlainObjectToStore o) e₁ with
                | ⟨.error er, _, e₂⟩ => ⟨.error er, ctx₁, e₂⟩
                | ⟨.ok _, n, e₂⟩ =>
                  match setFieldOp k (.node n) ctx₁ with
                  | .error er => ⟨.error er, ctx₁, e₂⟩
                  | .ok ctx₂ => ⟨.ok (.node n), ctx₂, e₂⟩
              | v => ⟨.ok v, ctx₁, e₁⟩
            | _ :: _ =>
              match v₁ with
              | .undef => ⟨.ok .undef, ctx₁, e₁⟩   -- if (value == null) return undefined
              | .nullv => ⟨.ok .undef, ctx₁, e₁⟩   -- == null also matches null
              | .node n =>
                match run env f (.readSegments rest n) e₁ with
                | ⟨res, n', e₂⟩ => ⟨res, ctx₁.withField k (.node n'), e₂⟩
              | .obj o =>
                match run env f (.convertPlainObjectToStore o) e₁ with
                | ⟨.error er, _, e₂⟩ => ⟨.error er, ctx₁, e₂⟩
                | ⟨.ok _, n, e₂⟩ =>
                  match setFieldOp k (.node n) ctx₁ with
                  | .error er => ⟨.error er, ctx₁, e₂⟩
                  | .ok ctx₂ =>
                    match run env f (.readSegments rest n) e₂ with
                    | ⟨res, n', e₃⟩ => ⟨res, ctx₂.withField k (.node n'), e₃⟩
              | _ => ⟨.error (.pathTraversal "Cannot traverse into non-object value" k), ctx₁, e₁⟩
        else ⟨.error (.permissionDenied .read k), ctx, e⟩

/-- `Store.read(path)`: `readSegments(path.split(':'), 0, this)`. -/
def Store.read (env : Nat → SValue) (fuel : Nat) (p : String) (s : Store) (e : Eff) : RunRes :=
  run env fuel (.readSegments (splitColon p) s) e

/-- `Store.write(path, value)`. -/
def Store.write (env : Nat → SValue) (fuel : Nat) (p : String) (v : SValue) (s : Store) (e : Eff) :
    RunRes :=
  run env fuel (.write p v s) e

/-- The value rendered into the `entries()` snapshot for a non-node,
non-function stored value: `out[key] = val !== undefined ? val : null`.
(`.node` and `.fn` are dispatched before this is consulted; `.other` cannot be
stored through the admission guard.) -/
def storedAsJSON : SValue → JValue
  | .str v => .str v
  | .num v => .num v
  | .boolv v => .bool v
  | .nullv => .null
  | .arr xs => .arr xs
  | .obj props => .obj props
  | _ => .null

/-- `Store.entries()` over an explicit key list (`Object.keys(this.data)`):
unreadable keys are skipped silently, nested nodes recurse into their own
`entries()`, stored functions (unevaluated producers) are skipped, everything
else is rendered by `storedAsJSON`.  Takes no producer environment and logs no
effects: snapshotting cannot force a producer.  Fuel-indexed (`none` =
out of fuel). -/
def entriesAux : Nat → Store → List String → Option (List (String × JValue))
  | 0, _, _ => Option.none
  | _ + 1, _, [] => some []
  | f + 1, s, k :: ks =>
    if s.allowedToRead k then
      match s.getField k with
      | .node n =>
        match entriesAux f n (n.data.map Prod.fst), entriesAux f s ks with
        | some inner, some rest => some ((k, .obj inner) :: rest)
        | _, _ => Option.none
      | .fn _ _ => entriesAux f s ks
      | v =>
        match entriesAux f s ks with
        | some rest => some ((k, storedAsJSON v) :: rest)
        | Option.none => Option.none
    else entriesAux f s ks

/-- `Store.entries()`. -/
def Store.entries (fuel : Nat) (s : Store) : Option (List (String × JValue)) :=
  entriesAux fuel s (s.data.map Prod.fst)

/-! Pure observation helpers used to state path-shaped hypotheses. -/

/-- Along `segs` from `s`, every segment is readable and maps to a nested
node.  This is the state `ensurePath` leaves the traversed path in. -/
def pathNodesReadable : Store → List String → Bool
  | _, [] => true
  | s, k :: ks =>
    s.allowedToRead k &&
      match s.getField k with
      | .node n => pathNodesReadable n ks
      | _ => false

/-- The node reached from `s` by following `segs` through nested nodes. -/
def nodeAtPath : Store → List String → Option Store
  | s, [] => some s
  | s, k :: ks =>
    match s.getField k with
    | .node n => nodeAtPath n ks
    | _ => Option.none

/-- The node at `init` (if any) permits reading `lk`. -/
def allowedReadAtTarget (s : Store) (init : List String) (lk : String) : Bool :=
  match nodeAtPath s init with
  | some par => par.allowedToRead lk
  | Option.none => true

/-! Concrete sample stores and environment used by witnesses and counterexamples. -/

def env0 : Nat → SValue := fun _ => .num 5

def e0 : Eff := ⟨[], 0⟩

def s0 : Store := emptyStore

def sC5 : Store := .mk .rw [] [("a", .node (.mk .rw [] [("b", .num 7)]))]

def eC5 : Eff := ⟨[], 1⟩

def sC6 : Store := .mk .rw [] [("k", .fn 0 0)]

def sC8 : Store := .mk .rw [("secret", .w)] [("a", .num 1), ("secret", .num 2), ("lazy", .fn 0 0)]

def sC9 : Store := .mk .none [] [("x", .num 1)]

end StoreTS

namespace StoreTS

/-! Basic facts about the field map and metadata. -/

theorem lookupField_updateField_self (l : List (String × SValue)) (k : String) (v : SValue) :
    lookupField (updateField l k v) k = v := by
  induction l with
  | nil => simp [updateField, lookupField]
  | cons kv rest ih =>
    obtain ⟨k', v'⟩ := kv
    by_cases h : k' = k
    · simp [updateField, h, lookupField]
    · simp [updateField, h, lookupField, ih]

theorem updateField_eq_self (l : List (String × SValue)) (k : String) (v : SValue)
    (hv : v ≠ .undef) (h : lookupField l k = v) : updateField l k v = l := by
  induction l with
  | nil =>
    simp [lookupField] at h
    exact absurd h.symm hv
  | cons kv rest ih =>
    obtain ⟨k', v'⟩ := kv
    by_cases hk : k' = k
    · subst hk
      simp [lookupField] at h
      simp [updateField, h]
    · simp [lookupField, hk] at h
      simp [updateField, hk, ih h]

theorem updateField_updateField (l : List (String × SValue)) (k : String) (v w : SValue) :
    updateField (updateField l k v) k w = updateField l k w := by
  induction l with
  | nil => simp [updateField]
  | cons kv rest ih =>
    obtain ⟨k', v'⟩ := kv
    by_cases h : k' = k
    · simp [updateField, h]
    · simp [updateField, h, ih]

theorem getField_withField_self (s : Store) (k : String) (v : SValue) :
    (s.withField k v).getField k = v := by
  cases s
  simp [Store.withField, Store.getField, Store.data, lookupField_updateField_self]

theorem withField_withField (s : Store) (k : String) (v w : SValue) :
    (s.withField k v).withField k w = s.withField k w := by
  cases s
  simp [Store.withField, updateField_updateField]

theorem withField_eq_self (s : Store) (k : String) (v : SValue)
    (hv : v ≠ .undef) (h : s.getField k = v) : s.withField k v = s := by
  cases s
  simp [Store.getField, Store.data] at h
  simp [Store.withField, updateField_eq_self _ _ _ hv h]

theorem defaultPolicy_withField (s : Store) (k : String) (v : SValue) :
    (s.withField k v).defaultPolicy = s.defaultPolicy := by
  cases s; rfl

theorem perms_withField (s : Store) (k : String) (v : SValue) :
    (s.withField k v).perms = s.perms := by
  cases s; rfl

theorem allowedToRead_of_meta (s t : Store) (k : String)
    (hp : s.defaultPolicy = t.defaultPolicy) (hm : s.perms = t.perms) :
    s.allowedToRead k = t.allowedToRead k := by
  simp [Store.allowedToRead, Store.getPermissionForKey, hp, hm]

theorem allowedToWrite_of_meta (s t : Store) (k : String)
    (hp : s.defaultPolicy = t.defaultPolicy) (hm : s.perms = t.perms) :
    s.allowedToWrite k = t.allowedToWrite k := by
  simp [Store.allowedToWrite, Store.getPermissionForKey, hp, hm]

theorem allowedToRead_withField (s : Store) (k' : String) (v : SValue) (k : String) :
    (s.withField k' v).allowedToRead k = s.allowedToRead k := by
  cases s; rfl

theorem allowedToWrite_withField (s : Store) (k' : String) (v : SValue) (k : String) :
    (s.withField k' v).allowedToWrite k = s.allowedToWrite k := by
  cases s; rfl

theorem isStoreValue_of_isStoreResult (v : SValue) (h : isStoreResult v = true) :
    Store.isStoreValue v = true := by
  cases v <;> simp_all [isStoreResult, Store.isStoreValue]

theorem setFieldOp_ok (k : String) (v : SValue) (s : Store) (h : Store.isStoreValue v = true) :
    setFieldOp k v s = .ok (s.withField k v) := by
  simp [setFieldOp, h]

theorem evalProducerStep_not_fn (env : Nat → SValue) (k : String) (s : Store) (e : Eff)
    (h : ∀ id ar, s.getField k ≠ .fn id ar) :
    evalProducerStep env k s e = (.ok (s, s.getField k), e) := by
  unfold evalProducerStep
  cases hv : s.getField k with
  | fn id ar => exact absurd hv (h id ar)
  | undef => rfl
  | str v => rfl
  | num v => rfl
  | boolv v => rfl
  | nullv => rfl
  | arr xs => rfl
  | obj o => rfl
  | node n => rfl
  | other => rfl

theorem evalProducerStep_meta (env : Nat → SValue) (k : String) (s : Store) (e : Eff)
    (s₁ : Store) (v : SValue) (e₁ : Eff)
    (h : evalProducerStep env k s e = (.ok (s₁, v), e₁)) :
    s₁.defaultPolicy = s.defaultPolicy ∧ s₁.perms = s.perms := by
  unfold evalProducerStep at h
  cases hv : s.getField k with
  | fn id ar =>
    rw [hv] at h
    unfold setFieldOp at h
    cases hg : Store.isStoreValue (env id) <;> simp [hg] at h
    obtain ⟨⟨h1, _⟩, _⟩ := h
    subst h1
    exact ⟨defaultPolicy_withField .., perms_withField ..⟩
  | undef =>
    rw [hv] at h; simp at h; obtain ⟨⟨h1, _⟩, _⟩ := h; subst h1; exact ⟨rfl, rfl⟩
  | str v' =>
    rw [hv] at h; simp at h; obtain ⟨⟨h1, _⟩, _⟩ := h; subst h1; exact ⟨rfl, rfl⟩
  | num v' =>
    rw [hv] at h; simp at h; obtain ⟨⟨h1, _⟩, _⟩ := h; subst h1; exact ⟨rfl, rfl⟩
  | boolv v' =>
    rw [hv] at h; simp at h; obtain ⟨⟨h1, _⟩, _⟩ := h; subst h1; exact ⟨rfl, rfl⟩
  | nullv =>
    rw [hv] at h; simp at h; obtain ⟨⟨h1, _⟩, _⟩ := h; subst h1; exact ⟨rfl, rfl⟩
  | arr xs =>
    rw [hv] at h; simp at h; obtain ⟨⟨h1, _⟩, _⟩ := h; subst h1; exact ⟨rfl, rfl⟩
  | obj o =>
    rw [hv] at h; simp at h; obtain ⟨⟨h1, _⟩, _⟩ := h; subst h1; exact ⟨rfl, rfl⟩
  | node n =>
    rw [hv] at h; simp at h; obtain ⟨⟨h1, _⟩, _⟩ := h; subst h1; exact ⟨rfl, rfl⟩
  | other =>
    rw [hv] at h; simp at h; obtain ⟨⟨h1, _⟩, _⟩ := h; subst h1; exact ⟨rfl, rfl⟩

end StoreTS

namespace StoreTS

theorem dropLast_append_single {α : Type} (l : List α) (a : α) : (l ++ [a]).dropLast = l := by
  induction l with
  | nil => rfl
  | cons x xs ih =>
    cases hxs : xs ++ [a] with
    | nil => exact absurd hxs (by simp)
    | cons y ys =>
      simp only [List.cons_append, hxs, List.dropLast_cons₂]
      rw [← hxs, ih]

theorem getLast?_append_single {α : Type} (l : List α) (a : α) : (l ++ [a]).getLast? = some a := by
  simp

/-- Inversion of one successful `ensurePath` step: a step through `k` ends
with the traversed child reinstalled under `k` on a parent that still permits
reading `k`. -/
theorem ensure_cons_inv (env : Nat → SValue) (f : Nat) (k : String) (ks : List String)
    (cur : Store) (e : Eff) (r : SValue) (cur' : Store) (e' : Eff)
    (h : run env (f + 1) (.ensurePath (k :: ks) cur) e = ⟨.ok r, cur', e'⟩) :
    ∃ (cur₂ n n' : Store) (e₂ : Eff),
      cur₂.allowedToRead k = true ∧
      run env f (.ensurePath ks n) e₂ = ⟨.ok r, n', e'⟩ ∧
      cur' = cur₂.withField k (.node n') := by
  simp only [run] at h
  by_cases hr : cur.allowedToRead k = true
  · rw [if_pos hr] at h
    rcases hps : evalProducerStep env k cur e with ⟨res1, e₁⟩
    rw [hps] at h
    cases res1 with
    | error er => simp at h
    | ok p1 =>
      obtain ⟨cur₁, v₁⟩ := p1
      simp only [] at h
      have hmeta₁ := evalProducerStep_meta env k cur e cur₁ v₁ e₁ hps
      have hr₁ : cur₁.allowedToRead k = true := by
        rw [allowedToRead_of_meta cur₁ cur k hmeta₁.1 hmeta₁.2]; exact hr
      cases v₁ with
      | undef =>
        simp only [] at h
        by_cases hw : cur₁.allowedToWrite k = true
        · rw [if_pos hw] at h
          rw [setFieldOp_ok k (.node emptyStore) cur₁ rfl] at h
          simp only [] at h
          rcases hrec : run env f (.ensurePath ks emptyStore) (e₁.newNode) with ⟨res, n', e₃⟩
          rw [hrec] at h
          simp only [RunRes.mk.injEq] at h
          obtain ⟨h1, h2, h3⟩ := h
          subst h1; subst h3
          refine ⟨cur₁.withField k (.node emptyStore), emptyStore, n', e₁.newNode, ?_, hrec, h2.symm⟩
          rw [allowedToRead_withField]; exact hr₁
        · rw [if_neg hw] at h
          simp at h
      | node n =>
        simp only [] at h
        rcases hrec : run env f (.ensurePath ks n) e₁ with ⟨res, n', e₃⟩
        rw [hrec] at h
        simp only [RunRes.mk.injEq] at h
        obtain ⟨h1, h2, h3⟩ := h
        subst h1; subst h3
        exact ⟨cur₁, n, n', e₁, hr₁, hrec, h2.symm⟩
      | obj o =>
        simp only [] at h
        rcases hc : run env f (.convertPlainObjectToStore o) e₁ with ⟨resc, nc, ec⟩
        rw [hc] at h
        cases resc with
        | error er => simp at h
        | ok rc =>
          simp only [] at h
          rw [setFieldOp_ok k (.node nc) cur₁ rfl] at h
          simp only [] at h
          rcases hrec : run env f (.ensurePath ks nc) ec with ⟨res, n', e₃⟩
          rw [hrec] at h
          simp only [RunRes.mk.injEq] at h
          obtain ⟨h1, h2, h3⟩ := h
          subst h1; subst h3
          refine ⟨cur₁.withField k (.node nc), nc, n', ec, ?_, hrec, h2.symm⟩
          rw [allowedToRead_withField]; exact hr₁
      | str v => simp at h
      | num v => simp at h
      | boolv v => simp at h
      | nullv => simp at h
      | arr xs => simp at h
      | fn id ar => simp at h
      | other => simp at h
  · rw [if_neg hr] at h
    simp at h

end StoreTS

namespace StoreTS

/-- A successful `ensurePath` leaves every traversed segment readable and
mapped to a node. -/
theorem ensurePath_pathNodesReadable (env : Nat → SValue) :
    ∀ (f : Nat) (segs : List String) (cur : Store) (e : Eff) (r : SValue) (cur' : Store) (e' : Eff),
    run env f (.ensurePath segs cur) e = ⟨.ok r, cur', e'⟩ →
    pathNodesReadable cur' segs = true := by
  intro f
  induction f with
  | zero =>
    intro segs cur e r cur' e' h
    simp [run] at h
  | succ f ih =>
    intro segs cur e r cur' e' h
    cases segs with
    | nil => rfl
    | cons k ks =>
      obtain ⟨cur₂, n, n', e₂, hread, hrec, hcur'⟩ := ensure_cons_inv env f k ks cur e r cur' e' h
      subst hcur'
      have hks := ih ks n e₂ r n' e' hrec
      simp [pathNodesReadable, allowedToRead_withField, hread, getField_withField_self, hks]

/-- Success inversion for `modifyAtPathM` along a readable node path. -/
theorem modifyAtPathM_ok (g : Store → Except Err Store) (errPath : String) :
    ∀ (init : List String) (s s₁ : Store),
    pathNodesReadable s init = true →
    modifyAtPathM g errPath s init = .ok s₁ →
    ∃ par par', nodeAtPath s init = some par ∧ g par = .ok par' ∧
      nodeAtPath s₁ init = some par' ∧ pathNodesReadable s₁ init = true := by
  intro init
  induction init with
  | nil =>
    intro s s₁ hp h
    simp only [modifyAtPathM] at h
    exact ⟨s, s₁, rfl, h, rfl, rfl⟩
  | cons k ks ih =>
    intro s s₁ hp h
    simp only [pathNodesReadable, Bool.and_eq_true] at hp
    obtain ⟨hread, hrest⟩ := hp
    simp only [modifyAtPathM] at h
    cases hv : s.getField k with
    | node n =>
      rw [hv] at hrest h
      simp only [] at hrest
      simp only [] at h
      cases hm : modifyAtPathM g errPath n ks with
      | error er => rw [hm] at h; simp at h
      | ok n' =>
        rw [hm] at h
        simp only [Except.ok.injEq] at h
        subst h
        obtain ⟨par, par', h1, h2, h3, h4⟩ := ih n n' hrest hm
        refine ⟨par, par', ?_, h2, ?_, ?_⟩
        · simp [nodeAtPath, hv, h1]
        · simp [nodeAtPath, getField_withField_self, h3]
        · simp [pathNodesReadable, allowedToRead_withField, hread, getField_withField_self, h4]
    | undef => rw [hv] at hrest; simp at hrest
    | str v => rw [hv] at hrest; simp at hrest
    | num v => rw [hv] at hrest; simp at hrest
    | boolv v => rw [hv] at hrest; simp at hrest
    | nullv => rw [hv] at hrest; simp at hrest
    | arr xs => rw [hv] at hrest; simp at hrest
    | obj o => rw [hv] at hrest; simp at hrest
    | fn id ar => rw [hv] at hrest; simp at hrest
    | other => rw [hv] at hrest; simp at hrest

/-- Reading along a path of readable nodes returns the stored value at the
final key, changes nothing, and invokes no producer: the state and effects are
returned untouched. -/
theorem read_node_path (env : Nat → SValue) :
    ∀ (init : List String) (fr : Nat) (s : Store) (e : Eff) (lk : String) (par : Store) (v : SValue),
    pathNodesReadable s init = true →
    nodeAtPath s init = some par →
    par.allowedToRead lk = true →
    par.getField lk = v →
    isStoreResult v = true →
    init.length + 1 ≤ fr →
    run env fr (.readSegments (init ++ [lk]) s) e = ⟨.ok v, s, e⟩ := by
  intro init
  induction init with
  | nil =>
    intro fr s e lk par v hp hn hr hg hv hfr
    simp only [nodeAtPath, Option.some.injEq] at hn
    rw [← hn] at hr hg
    cases fr with
    | zero => omega
    | succ f =>
      have hnofn : ∀ id ar, s.getField lk ≠ .fn id ar := by
        intro id ar hcontra
        rw [hg] at hcontra
        subst hcontra
        simp [isStoreResult] at hv
      simp only [run, List.nil_append]
      rw [if_pos hr, evalProducerStep_not_fn env lk s e hnofn]
      simp only []
      rw [hg]
      cases v with
      | undef => rfl
      | str a => rfl
      | num a => rfl
      | boolv a => rfl
      | nullv => rfl
      | arr xs => rfl
      | node n => rfl
      | obj o => simp [isStoreResult] at hv
      | fn id ar => simp [isStoreResult] at hv
      | other => simp [isStoreResult] at hv
  | cons k init' ih =>
    intro fr s e lk par v hp hn hr hg hv hfr
    simp only [pathNodesReadable, Bool.and_eq_true] at hp
    obtain ⟨hread, hrest⟩ := hp
    cases hks : s.getField k with
    | node n =>
      rw [hks] at hrest
      simp only [] at hrest
      simp only [nodeAtPath] at hn
      rw [hks] at hn
      simp only [] at hn
      cases fr with
      | zero => simp at hfr
      | succ f =>
        have hf' : init'.length + 1 ≤ f := by
          simp only [List.length_cons] at hfr
          omega
        have hrec := ih f n e lk par v hrest hn hr hg hv hf'
        have hnofn : ∀ id ar, s.getField k ≠ .fn id ar := by
          intro id ar hcontra
          rw [hks] at hcontra
          exact SValue.noConfusion hcontra
        obtain ⟨a, as, ha⟩ : ∃ a as, init' ++ [lk] = a :: as := by
          cases init' with
          | nil => exact ⟨lk, [], rfl⟩
          | cons x xs => exact ⟨x, xs ++ [lk], rfl⟩
        simp only [run, List.cons_append]
        rw [if_pos hread, evalProducerStep_not_fn env k s e hnofn]
        simp only []
        rw [hks, ha]
        simp only []
        rw [← ha, hrec]
        simp only []
        rw [withField_eq_self s k (.node n) (by simp) hks]
    | undef => rw [hks] at hrest; simp at hrest
    | str a => rw [hks] at hrest; simp at hrest
    | num a => rw [hks] at hrest; simp at hrest
    | boolv a => rw [hks] at hrest; simp at hrest
    | nullv => rw [hks] at hrest; simp at hrest
    | arr xs => rw [hks] at hrest; simp at hrest
    | obj o => rw [hks] at hrest; simp at hrest
    | fn id ar => rw [hks] at hrest; simp at hrest
    | other => rw [hks] at hrest; simp at hrest

end StoreTS

namespace StoreTS

/-- `modifyAtPathM` rebuilds the tree along the path without touching any
node's policy or declared annotations, provided `g` does not. -/
theorem modifyAtPathM_meta (g : Store → Except Err Store) (errPath : String)
    (hg : ∀ t t', g t = .ok t' → t'.defaultPolicy = t.defaultPolicy ∧ t'.perms = t.perms) :
    ∀ (init : List String) (s s' : Store), modifyAtPathM g errPath s init = .ok s' →
    s'.defaultPolicy = s.defaultPolicy ∧ s'.perms = s.perms := by
  intro init
  induction init with
  | nil =>
    intro s s' h
    exact hg s s' h
  | cons k ks ih =>
    intro s s' h
    simp only [modifyAtPathM] at h
    cases hv : s.getField k with
    | node n =>
      rw [hv] at h
      simp only [] at h
      cases hm : modifyAtPathM g errPath n ks with
      | error er => rw [hm] at h; simp at h
      | ok n' =>
        rw [hm] at h
        simp only [Except.ok.injEq] at h
        subst h
        exact ⟨defaultPolicy_withField .., perms_withField ..⟩
    | undef => rw [hv] at h; simp at h
    | str a => rw [hv] at h; simp at h
    | num a => rw [hv] at h; simp at h
    | boolv a => rw [hv] at h; simp at h
    | nullv => rw [hv] at h; simp at h
    | arr xs => rw [hv] at h; simp at h
    | obj o => rw [hv] at h; simp at h
    | fn id ar => rw [hv] at h; simp at h
    | other => rw [hv] at h; simp at h

/-- No engine operation changes the default policy or the declared annotations
of the store it runs on; in particular `convertPlainObjectToStore` always hands
back a store with the `new Store()` metadata: default policy `'rw'` and no
declared annotations. -/
theorem run_st_meta (env : Nat → SValue) : ∀ f : Nat,
    (∀ (segs : List String) (cur : Store) (e : Eff),
      (run env f (.ensurePath segs cur) e).st.defaultPolicy = cur.defaultPolicy ∧
      (run env f (.ensurePath segs cur) e).st.perms = cur.perms) ∧
    (∀ (p : String) (v : SValue) (root : Store) (e : Eff),
      (run env f (.write p v root) e).st.defaultPolicy = root.defaultPolicy ∧
      (run env f (.write p v root) e).st.perms = root.perms) ∧
    (∀ (l : List (String × JValue)) (root : Store) (e : Eff),
      (run env f (.writeEntries l root) e).st.defaultPolicy = root.defaultPolicy ∧
      (run env f (.writeEntries l root) e).st.perms = root.perms) ∧
    (∀ (props : List (String × JValue)) (e : Eff),
      (run env f (.convertPlainObjectToStore props) e).st.defaultPolicy = .rw ∧
      (run env f (.convertPlainObjectToStore props) e).st.perms = []) := by
  intro f
  induction f with
  | zero =>
    refine ⟨fun segs cur e => ⟨rfl, rfl⟩, fun p v root e => ⟨rfl, rfl⟩,
      fun l root e => ⟨rfl, rfl⟩, fun props e => ⟨rfl, rfl⟩⟩
  | succ f ih =>
    obtain ⟨ihE, ihW, ihL, ihC⟩ := ih
    refine ⟨?_, ?_, ?_, ?_⟩
    · intro segs cur e
      cases segs with
      | nil => exact ⟨rfl, rfl⟩
      | cons k ks =>
        simp only [run]
        by_cases hr : cur.allowedToRead k = true
        · rw [if_pos hr]
          rcases hps : evalProducerStep env k cur e with ⟨res1, e₁⟩
          cases res1 with
          | error er => exact ⟨rfl, rfl⟩
          | ok p1 =>
            obtain ⟨cur₁, v₁⟩ := p1
            have hm₁ := evalProducerStep_meta env k cur e cur₁ v₁ e₁ hps
            simp only []
            cases v₁ with
            | undef =>
              simp only []
              by_cases hw : cur₁.allowedToWrite k = true
              · rw [if_pos hw, setFieldOp_ok k (.node emptyStore) cur₁ rfl]
                simp only []
                refine ⟨?_, ?_⟩
                · rw [defaultPolicy_withField, defaultPolicy_withField]; exact hm₁.1
                · rw [perms_withField, perms_withField]; exact hm₁.2
              · rw [if_neg hw]
                simp only []
                exact hm₁
            | node n =>
              simp only []
              refine ⟨?_, ?_⟩
              · rw [defaultPolicy_withField]; exact hm₁.1
              · rw [perms_withField]; exact hm₁.2
            | obj o =>
              simp only []
              rcases hc : run env f (.convertPlainObjectToStore o) e₁ with ⟨resc, nc, ec⟩
              cases resc with
              | error er => simp only []; exact hm₁
              | ok rc =>
                simp only []
                rw [setFieldOp_ok k (.node nc) cur₁ rfl]
                simp only []
                refine ⟨?_, ?_⟩
                · rw [defaultPolicy_withField, defaultPolicy_withField]; exact hm₁.1
                · rw [perms_withField, perms_withField]; exact hm₁.2
            | str a => simp only []; exact hm₁
            | num a => simp only []; exact hm₁
            | boolv a => simp only []; exact hm₁
            | nullv => simp only []; exact hm₁
            | arr xs => simp only []; exact hm₁
            | fn id ar => simp only []; exact hm₁
            | other => simp only []; exact hm₁
        · rw [if_neg hr]
          exact ⟨rfl, rfl⟩
    · intro p v root e
      simp only [run]
      rcases hE : run env f (.ensurePath (splitColon p).dropLast root) e with ⟨resE, root₁, e₁⟩
      have hmE := ihE (splitColon p).dropLast root e
      rw [hE] at hmE
      cases resE with
      | error er => simp only []; exact hmE
      | ok u =>
        simp only []
        cases hL : (splitColon p).getLast? with
        | none => simp only []; exact hmE
        | some lastKey =>
          simp only []
          cases hM : modifyAtPathM
              (fun parent =>
                if parent.allowedToWrite lastKey then setFieldOp lastKey v parent
                else .error (.permissionDenied .write lastKey))
              (String.intercalate ":" (splitColon p).dropLast) root₁ (splitColon p).dropLast with
          | error er => simp only []; exact hmE
          | ok root₂ =>
            simp only []
            have hg : ∀ t t',
                (if t.allowedToWrite lastKey then setFieldOp lastKey v t
                 else Except.error (Err.permissionDenied .write lastKey)) = .ok t' →
                t'.defaultPolicy = t.defaultPolicy ∧ t'.perms = t.perms := by
              intro t t' hgt
              by_cases hw : t.allowedToWrite lastKey = true
              · rw [if_pos hw] at hgt
                unfold setFieldOp at hgt
                by_cases hsv : Store.isStoreValue v = true
                · rw [if_pos hsv] at hgt
                  simp only [Except.ok.injEq] at hgt
                  subst hgt
                  exact ⟨defaultPolicy_withField .., perms_withField ..⟩
                · rw [if_neg hsv] at hgt
                  simp at hgt
              · rw [if_neg hw] at hgt
                simp at hgt
            have := modifyAtPathM_meta _ _ hg (splitColon p).dropLast root₁ root₂ hM
            exact ⟨this.1.trans hmE.1, this.2.trans hmE.2⟩
    · intro l root e
      cases l with
      | nil => exact ⟨rfl, rfl⟩
      | cons kv rest =>
        obtain ⟨k, v⟩ := kv
        simp only [run]
        rcases hW : run env f (.write k (jvalToSValue v) root) e with ⟨resW, root₁, e₁⟩
        have hmW := ihW k (jvalToSValue v) root e
        rw [hW] at hmW
        cases resW with
        | error er => simp only []; exact hmW
        | ok u =>
          simp only []
          have hmL := ihL rest root₁ e₁
          exact ⟨hmL.1.trans hmW.1, hmL.2.trans hmW.2⟩
    · intro props e
      simp only [run]
      have hmL := ihL props emptyStore (e.newNode)
      exact hmL

end StoreTS

namespace StoreTS

/-- Reading a single readable key whose stored value is not a function and not
a plain object returns the stored value and changes nothing. -/
theorem read_single_key_not_fn (env : Nat → SValue) (f : Nat) (k : String) (s : Store) (e : Eff)
    (hr : s.allowedToRead k = true)
    (hv : isStoreResult (s.getField k) = true) :
    run env (f + 1) (.readSegments [k] s) e = ⟨.ok (s.getField k), s, e⟩ := by
  have h := read_node_path env [] (f + 1) s e k s (s.getField k) rfl rfl hr rfl hv (by simp)
  simpa using h

/-- Claim C1, code evaluated at the failing inputs: `write("", 1)` on a fresh
default-`rw` store does NOT raise Invalid Path — `"".split(':')` is `[""]`, so
`segments.pop()` yields the key `""` and the value is stored under it and
returned.  Likewise `write("a:", 1)` creates the intermediate node `a` and
stores the value under its empty-string key.  The `InvalidPathError` branch of
`Store.write` is unreachable, contradicting the spec (and the error's own
message). -/
theorem write_empty_path_stores :
    Store.write env0 6 "" (.num 1) s0 e0 = ⟨.ok (.num 1), .mk .rw [] [("", .num 1)], e0⟩ ∧
    Store.write env0 6 "a:" (.num 1) s0 e0 =
      ⟨.ok (.num 1), .mk .rw [] [("a", .node (.mk .rw [] [("", .num 1)]))], ⟨[], 1⟩⟩ ∧
    (∀ msg, (Store.write env0 6 "" (.num 1) s0 e0).res ≠ .error (.invalidPath msg)) :=
  ⟨rfl, rfl, fun _ h => nomatch h⟩

/-- Claim C2 counterexample: on a fresh `rw` store, `write("a:b", v)` with a
guard-rejected value `v` raises Invalid Value, but the failed call has already
created and stored the intermediate node at field `a` — the store state after
the failed write differs from the state before it. -/
theorem failed_write_mutates_counterexample :
    Store.write env0 9 "a:b" .other s0 e0 =
      ⟨.error (.invalidValue "b"), .mk .rw [] [("a", .node emptyStore)], ⟨[], 1⟩⟩ ∧
    s0.getField "a" = .undef ∧
    (Store.write env0 9 "a:b" .other s0 e0).st.getField "a" = .node emptyStore ∧
    SValue.node emptyStore ≠ .undef :=
  ⟨rfl, rfl, rfl, fun h => nomatch h⟩

/-- Claim C2 (amended): only the destination-field assignment itself is
atomic.  For a single-segment path (no resolution steps), a write whose value
fails the admission guard raises Invalid Value and leaves the store and the
effect log completely unchanged. -/
theorem single_segment_invalid_write_leaves_state
    (env : Nat → SValue) (f : Nat) (p k : String) (v : SValue) (s : Store) (e : Eff)
    (hsplit : splitColon p = [k])
    (hperm : s.allowedToWrite k = true)
    (hbad : Store.isStoreValue v = false) :
    Store.write env (f + 2) p v s e = ⟨.error (.invalidValue k), s, e⟩ := by
  simp [Store.write, run, hsplit, modifyAtPathM, hperm, setFieldOp, hbad]

theorem single_segment_invalid_write_leaves_state_witness :
    Store.write env0 5 "k" .other s0 e0 = ⟨.error (.invalidValue "k"), s0, e0⟩ :=
  single_segment_invalid_write_leaves_state env0 3 "k" "k" .other s0 e0 rfl rfl rfl

/-- Claim C3 counterexample: the admission guard accepts a function of arity 1
(`typeof x === 'function'` is the only check), so writing it succeeds and
stores the function — no Invalid Value is raised. -/
theorem unary_function_admitted_counterexample :
    Store.isStoreValue (.fn 0 1) = true ∧
    Store.write env0 6 "k" (.fn 0 1) s0 e0 = ⟨.ok (.fn 0 1), .mk .rw [] [("k", .fn 0 1)], e0⟩ ∧
    (∀ k', (Store.write env0 6 "k" (.fn 0 1) s0 e0).res ≠ .error (.invalidValue k')) :=
  ⟨rfl, rfl, fun _ h => nomatch h⟩

/-- Claim C3 (amended): the admission guard admits every function value
regardless of arity, so writing a function with any number of parameters to a
write-permitted key succeeds and stores the function as-is. -/
theorem write_any_arity_function_succeeds
    (env : Nat → SValue) (f : Nat) (p k : String) (id ar : Nat) (s : Store) (e : Eff)
    (hsplit : splitColon p = [k])
    (hperm : s.allowedToWrite k = true) :
    Store.write env (f + 2) p (.fn id ar) s e = ⟨.ok (.fn id ar), s.withField k (.fn id ar), e⟩ := by
  simp [Store.write, run, hsplit, modifyAtPathM, hperm, setFieldOp, Store.isStoreValue]

theorem write_any_arity_function_succeeds_witness :
    Store.write env0 5 "k" (.fn 0 2) s0 e0 = ⟨.ok (.fn 0 2), s0.withField "k" (.fn 0 2), e0⟩ :=
  write_any_arity_function_succeeds env0 3 "k" "k" 0 2 s0 e0 rfl rfl

/-- Claim C4 counterexample: `read("")` on a fresh `rw` store returns
`undefined` (the value stored under the key `""`, which is absent), not the
store itself — `"".split(':')` is `[""]`, not an empty segment sequence. -/
theorem read_empty_path_not_node_counterexample :
    Store.read env0 6 "" s0 e0 = ⟨.ok .undef, s0, e0⟩ ∧
    (SValue.undef ≠ .node s0) :=
  ⟨rfl, fun h => nomatch h⟩

/-- Claim C4 (amended): splitting the empty path yields the singleton segment
sequence `[""]`, so `read("")` performs an ordinary permission-checked read of
the field named `""` and returns its stored value (absent when nothing is
stored there), not the node itself. -/
theorem read_empty_path_reads_empty_key
    (env : Nat → SValue) (f : Nat) (s : Store) (e : Eff)
    (hperm : s.allowedToRead "" = true)
    (hval : isStoreResult (s.getField "") = true) :
    splitColon "" = [""] ∧
    Store.read env (f + 1) "" s e = ⟨.ok (s.getField ""), s, e⟩ := by
  refine ⟨rfl, ?_⟩
  have h := read_single_key_not_fn env f "" s e hperm hval
  simpa [Store.read, splitColon, splitCharAux] using h

theorem read_empty_path_reads_empty_key_witness :
    splitColon "" = [""] ∧ Store.read env0 4 "" s0 e0 = ⟨.ok (s0.getField ""), s0, e0⟩ :=
  read_empty_path_reads_empty_key env0 3 s0 e0 rfl rfl

end StoreTS

namespace StoreTS

/-- Claim C5 counterexample: a deferred producer is accepted by the admission
guard and `"k"` is fully permitted on a fresh `rw` store, yet
`write("k", producer)` followed by `read("k")` returns the produced value
(here `5`), not a value equal to the written producer. -/
theorem roundtrip_producer_counterexample :
    Store.isStoreValue (.fn 0 0) = true ∧
    Store.write env0 4 "k" (.fn 0 0) s0 e0 = ⟨.ok (.fn 0 0), .mk .rw [] [("k", .fn 0 0)], e0⟩ ∧
    Store.read env0 4 "k" (.mk .rw [] [("k", .fn 0 0)]) e0 =
      ⟨.ok (.num 5), .mk .rw [] [("k", .num 5)], ⟨[0], 0⟩⟩ ∧
    (SValue.num 5 ≠ .fn 0 0) :=
  ⟨rfl, rfl, rfl, fun h => nomatch h⟩

/-- Claim C5 (amended): the round trip is exact for every admitted value that
is neither a plain object nor a function (a primitive, an array, `undefined`,
or a store node): if `write(p, v)` succeeds and the key resolved at the
destination is readable, then `read(p)` succeeds with exactly `v` and changes
neither the store nor the effect log.  (A plain object is instead returned as
its promoted node, and a producer as its produced value.) -/
theorem write_then_read_roundtrip
    (env : Nat → SValue) (fw fr : Nat) (p : String) (init : List String) (lk : String)
    (v : SValue) (s : Store) (e : Eff) (vr : SValue) (s₁ : Store) (e₁ : Eff)
    (hsplit : splitColon p = init ++ [lk])
    (hv : isStoreResult v = true)
    (hw : Store.write env fw p v s e = ⟨.ok vr, s₁, e₁⟩)
    (hr : allowedReadAtTarget s₁ init lk = true)
    (hfr : init.length + 1 ≤ fr) :
    vr = v ∧ Store.read env fr p s₁ e₁ = ⟨.ok v, s₁, e₁⟩ := by
  cases fw with
  | zero => simp [Store.write, run] at hw
  | succ f =>
    simp only [Store.write, run, hsplit] at hw
    rw [dropLast_append_single, getLast?_append_single] at hw
    rcases hE : run env f (.ensurePath init s) e with ⟨resE, stE, effE⟩
    rw [hE] at hw
    cases resE with
    | error er => simp at hw
    | ok u =>
      simp only [] at hw
      cases hM : modifyAtPathM
          (fun parent =>
            if parent.allowedToWrite lk then setFieldOp lk v parent
            else .error (.permissionDenied .write lk))
          (String.intercalate ":" init) stE init with
      | error er => rw [hM] at hw; simp at hw
      | ok root₂ =>
        rw [hM] at hw
        simp only [RunRes.mk.injEq, Except.ok.injEq] at hw
        obtain ⟨hw1, hw2, hw3⟩ := hw
        subst hw2
        subst hw3
        have hpnr := ensurePath_pathNodesReadable env f init s e u stE effE hE
        obtain ⟨par, par', hnp, hgpar, hnp', hpnr'⟩ := modifyAtPathM_ok _ _ init stE root₂ hpnr hM
        by_cases hwper : par.allowedToWrite lk = true
        · rw [if_pos hwper] at hgpar
          rw [setFieldOp_ok lk v par (isStoreValue_of_isStoreResult v hv)] at hgpar
          simp only [Except.ok.injEq] at hgpar
          subst hgpar
          have hrd : (par.withField lk v).allowedToRead lk = true := by
            simp only [allowedReadAtTarget] at hr
            rw [hnp'] at hr
            exact hr
          have hgf : (par.withField lk v).getField lk = v := getField_withField_self ..
          have hread := read_node_path env init fr root₂ effE lk (par.withField lk v) v
            hpnr' hnp' hrd hgf hv hfr
          refine ⟨hw1.symm, ?_⟩
          simp only [Store.read, hsplit]
          exact hread
        · rw [if_neg hwper] at hgpar
          exact absurd hgpar (by simp)

theorem write_then_read_roundtrip_witness :
    SValue.num 7 = SValue.num 7 ∧
    Store.read env0 3 "a:b" sC5 eC5 = ⟨.ok (.num 7), sC5, eC5⟩ :=
  write_then_read_roundtrip env0 4 3 "a:b" ["a"] "b" (.num 7) s0 e0 (.num 7) sC5 eC5
    rfl rfl rfl rfl (by simp)

end StoreTS

namespace StoreTS

/-- Claim C6: for a field holding a deferred producer, a successful `read` of
that field invokes the producer exactly once (the invocation log grows by
exactly that producer's id), returns the produced value, overwrites the field
with it, and a second `read` of the same path returns the same value while
changing nothing — neither the store nor the invocation log (the producer is
not invoked again).  The hypothesis `isStoreResult (env id)` is the source's
own declared producer type `() => StoreResult`. -/
theorem producer_evaluated_once_memoized
    (env : Nat → SValue) (f : Nat) (p k : String) (id ar : Nat) (s : Store) (e : Eff)
    (v : SValue) (s₁ : Store) (e₁ : Eff)
    (hsplit : splitColon p = [k])
    (hfld : s.getField k = .fn id ar)
    (henv : isStoreResult (env id) = true)
    (h1 : Store.read env f p s e = ⟨.ok v, s₁, e₁⟩) :
    e₁.prodCalls = e.prodCalls ++ [id] ∧
    v = env id ∧
    s₁.getField k = env id ∧
    Store.read env f p s₁ e₁ = ⟨.ok v, s₁, e₁⟩ := by
  cases f with
  | zero => simp [Store.read, run] at h1
  | succ f =>
    by_cases hr : s.allowedToRead k = true
    · have hstep : evalProducerStep env k s e = (.ok (s.withField k (env id), env id), e.logCall id) := by
        unfold evalProducerStep
        rw [hfld]
        simp only []
        rw [setFieldOp_ok k (env id) s (isStoreValue_of_isStoreResult _ henv)]
      have hfst : Store.read env (f + 1) p s e =
          ⟨.ok (env id), s.withField k (env id), e.logCall id⟩ := by
        simp only [Store.read, hsplit, run]
        rw [if_pos hr, hstep]
        simp only []
        cases hv : env id with
        | obj o => rw [hv] at henv; simp [isStoreResult] at henv
        | fn a b => rfl
        | other => rfl
        | undef => rfl
        | str a => rfl
        | num a => rfl
        | boolv a => rfl
        | nullv => rfl
        | arr xs => rfl
        | node n => rfl
      rw [hfst] at h1
      simp only [RunRes.mk.injEq, Except.ok.injEq] at h1
      obtain ⟨h1a, h1b, h1c⟩ := h1
      subst h1a
      subst h1b
      subst h1c
      have hr' : (s.withField k (env id)).allowedToRead k = true := by
        rw [allowedToRead_withField]; exact hr
      have hv' : isStoreResult ((s.withField k (env id)).getField k) = true := by
        rw [getField_withField_self]; exact henv
      have h2 := read_single_key_not_fn env f k (s.withField k (env id)) (e.logCall id) hr' hv'
      rw [getField_withField_self] at h2
      refine ⟨rfl, rfl, getField_withField_self .., ?_⟩
      simp only [Store.read, hsplit]
      exact h2
    · have hden : Store.read env (f + 1) p s e = ⟨.error (.permissionDenied .read k), s, e⟩ := by
        simp only [Store.read, hsplit, run]
        rw [if_neg hr]
      rw [hden] at h1
      simp at h1

theorem producer_evaluated_once_memoized_witness :
    (⟨[0], 0⟩ : Eff).prodCalls = e0.prodCalls ++ [0] ∧
    SValue.num 5 = env0 0 ∧
    (Store.mk .rw [] [("k", .num 5)]).getField "k" = env0 0 ∧
    Store.read env0 3 "k" (.mk .rw [] [("k", .num 5)]) ⟨[0], 0⟩ =
      ⟨.ok (.num 5), .mk .rw [] [("k", .num 5)], ⟨[0], 0⟩⟩ :=
  producer_evaluated_once_memoized env0 3 "k" "k" 0 0 sC6 e0 (.num 5)
    (.mk .rw [] [("k", .num 5)]) ⟨[0], 0⟩ rfl rfl rfl rfl

/-- Claim C7: a successful `read` terminating at a field holding a plain JSON
object promotes it to exactly one node: the returned value is a node, that
same node is stored back under the key, and a second `read` of the same path
returns that very node while changing neither the store nor the effect log —
in particular the node-allocation counter does not move on the second read, so
no second node is ever created for the field. -/
theorem promotion_idempotent_single_field
    (env : Nat → SValue) (f : Nat) (p k : String) (o : List (String × JValue))
    (s : Store) (e : Eff) (v : SValue) (s₁ : Store) (e₁ : Eff)
    (hsplit : splitColon p = [k])
    (hfld : s.getField k = .obj o)
    (h1 : Store.read env f p s e = ⟨.ok v, s₁, e₁⟩) :
    ∃ n : Store, v = .node n ∧ s₁.getField k = .node n ∧
      Store.read env f p s₁ e₁ = ⟨.ok (.node n), s₁, e₁⟩ := by
  cases f with
  | zero => simp [Store.read, run] at h1
  | succ f =>
    by_cases hr : s.allowedToRead k = true
    · have hnofn : ∀ id ar, s.getField k ≠ .fn id ar := by
        intro id ar hc
        rw [hfld] at hc
        exact SValue.noConfusion hc
      simp only [Store.read, hsplit, run] at h1
      rw [if_pos hr, evalProducerStep_not_fn env k s e hnofn] at h1
      simp only [] at h1
      rw [hfld] at h1
      simp only [] at h1
      rcases hc : run env f (.convertPlainObjectToStore o) e with ⟨resc, nc, ec⟩
      rw [hc] at h1
      cases resc with
      | error er => simp at h1
      | ok rc =>
        simp only [] at h1
        rw [setFieldOp_ok k (.node nc) s rfl] at h1
        simp only [RunRes.mk.injEq, Except.ok.injEq] at h1
        obtain ⟨h1a, h1b, h1c⟩ := h1
        subst h1a
        subst h1b
        subst h1c
        have hr' : (s.withField k (.node nc)).allowedToRead k = true := by
          rw [allowedToRead_withField]; exact hr
        have hv' : isStoreResult ((s.withField k (.node nc)).getField k) = true := by
          rw [getField_withField_self]; rfl
        have h2 := read_single_key_not_fn env f k (s.withField k (.node nc)) ec hr' hv'
        rw [getField_withField_self] at h2
        refine ⟨nc, rfl, getField_withField_self .., ?_⟩
        simp only [Store.read, hsplit]
        exact h2
    · have hden : Store.read env (f + 1) p s e = ⟨.error (.permissionDenied .read k), s, e⟩ := by
        simp only [Store.read, hsplit, run]
        rw [if_neg hr]
      rw [hden] at h1
      simp at h1

theorem promotion_idempotent_single_field_witness :
    ∃ n : Store, SValue.node (Store.mk .rw [] [("x", .num 1)]) = .node n ∧
      (Store.mk .rw [] [("k", .node (.mk .rw [] [("x", .num 1)]))]).getField "k" = .node n ∧
      Store.read env0 5 "k" (.mk .rw [] [("k", .node (.mk .rw [] [("x", .num 1)]))]) ⟨[], 1⟩ =
        ⟨.ok (.node n), .mk .rw [] [("k", .node (.mk .rw [] [("x", .num 1)]))], ⟨[], 1⟩⟩ :=
  promotion_idempotent_single_field env0 5 "k" "k" [("x", .num 1)]
    (.mk .rw [] [("k", .obj [("x", .num 1)])]) e0 (.node (.mk .rw [] [("x", .num 1)]))
    (.mk .rw [] [("k", .node (.mk .rw [] [("x", .num 1)]))]) ⟨[], 1⟩ rfl rfl rfl

end StoreTS

namespace StoreTS

/-- Every key in an `entriesAux` snapshot comes from the key list, is readable
on the node, and does not hold a stored function (an unevaluated producer). -/
theorem entriesAux_mem :
    ∀ (f : Nat) (s : Store) (ks : List String) (out : List (String × JValue)),
    entriesAux f s ks = some out →
    ∀ k, k ∈ out.map Prod.fst →
      k ∈ ks ∧ s.allowedToRead k = true ∧ ∀ id ar, s.getField k ≠ .fn id ar := by
  intro f
  induction f with
  | zero =>
    intro s ks out h
    simp [entriesAux] at h
  | succ f ih =>
    intro s ks out h k hk
    cases ks with
    | nil =>
      simp only [entriesAux, Option.some.injEq] at h
      subst h
      simp at hk
    | cons k' ks' =>
      simp only [entriesAux] at h
      by_cases hr : s.allowedToRead k' = true
      · rw [if_pos hr] at h
        cases hv : s.getField k' with
        | node n =>
          rw [hv] at h
          simp only [] at h
          cases hin : entriesAux f n (n.data.map Prod.fst) with
          | none => rw [hin] at h; simp at h
          | some inner =>
            rw [hin] at h
            cases hrest : entriesAux f s ks' with
            | none => rw [hrest] at h; simp at h
            | some rest =>
              rw [hrest] at h
              simp only [Option.some.injEq] at h
              subst h
              simp only [List.map_cons, List.mem_cons] at hk
              cases hk with
              | inl hEq =>
                subst hEq
                refine ⟨List.mem_cons_self .., hr, ?_⟩
                intro id ar hc
                rw [hv] at hc
                exact SValue.noConfusion hc
              | inr hk2 =>
                obtain ⟨hmem, hr2, hnf⟩ := ih s ks' rest hrest k hk2
                exact ⟨List.mem_cons_of_mem _ hmem, hr2, hnf⟩
        | fn id ar =>
          rw [hv] at h
          simp only [] at h
          obtain ⟨hmem, hr2, hnf⟩ := ih s ks' out h k hk
          exact ⟨List.mem_cons_of_mem _ hmem, hr2, hnf⟩
        | undef =>
          rw [hv] at h
          simp only [] at h
          cases hrest : entriesAux f s ks' with
          | none => rw [hrest] at h; simp at h
          | some rest =>
            rw [hrest] at h
            simp only [Option.some.injEq] at h
            subst h
            simp only [List.map_cons, List.mem_cons] at hk
            cases hk with
            | inl hEq =>
              subst hEq
              refine ⟨List.mem_cons_self .., hr, ?_⟩
              intro id ar hc
              rw [hv] at hc
              exact SValue.noConfusion hc
            | inr hk2 =>
              obtain ⟨hmem, hr2, hnf⟩ := ih s ks' rest hrest k hk2
              exact ⟨List.mem_cons_of_mem _ hmem, hr2, hnf⟩
        | str a =>
          rw [hv] at h
          simp only [] at h
          cases hrest : entriesAux f s ks' with
          | none => rw [hrest] at h; simp at h
          | some rest =>
            rw [hrest] at h
            simp only [Option.some.injEq] at h
            subst h
            simp only [List.map_cons, List.mem_cons] at hk
            cases hk with
            | inl hEq =>
              subst hEq
              refine ⟨List.mem_cons_self .., hr, ?_⟩
              intro id ar hc
              rw [hv] at hc
              exact SValue.noConfusion hc
            | inr hk2 =>
              obtain ⟨hmem, hr2, hnf⟩ := ih s ks' rest hrest k hk2
              exact ⟨List.mem_cons_of_mem _ hmem, hr2, hnf⟩
        | num a =>
          rw [hv] at h
          simp only [] at h
          cases hrest : entriesAux f s ks' with
          | none => rw [hrest] at h; simp at h
          | some rest =>
            rw [hrest] at h
            simp only [Option.some.injEq] at h
            subst h
            simp only [List.map_cons, List.mem_cons] at hk
            cases hk with
            | inl hEq =>
              subst hEq
              refine ⟨List.mem_cons_self .., hr, ?_⟩
              intro id ar hc
              rw [hv] at hc
              exact SValue.noConfusion hc
            | inr hk2 =>
              obtain ⟨hmem, hr2, hnf⟩ := ih s ks' rest hrest k hk2
              exact ⟨List.mem_cons_of_mem _ hmem, hr2, hnf⟩
        | boolv a =>
          rw [hv] at h
          simp only [] at h
          cases hrest : entriesAux f s ks' with
          | none => rw [hrest] at h; simp at h
          | some rest =>
            rw [hrest] at h
            simp only [Option.some.injEq] at h
            subst h
            simp only [List.map_cons, List.mem_cons] at hk
            cases hk with
            | inl hEq =>
              subst hEq
              refine ⟨List.mem_cons_self .., hr, ?_⟩
              intro id ar hc
              rw [hv] at hc
              exact SValue.noConfusion hc
            | inr hk2 =>
              obtain ⟨hmem, hr2, hnf⟩ := ih s ks' rest hrest k hk2
              exact ⟨List.mem_cons_of_mem _ hmem, hr2, hnf⟩
        | nullv =>
          rw [hv] at h
          simp only [] at h
          cases hrest : entriesAux f s ks' with
          | none => rw [hrest] at h; simp at h
          | some rest =>
            rw [hrest] at h
            simp only [Option.some.injEq] at h
            subst h
            simp only [List.map_cons, List.mem_cons] at hk
            cases hk with
            | inl hEq =>
              subst hEq
              refine ⟨List.mem_cons_self .., hr, ?_⟩
              intro id ar hc
              rw [hv] at hc
              exact SValue.noConfusion hc
            | inr hk2 =>
              obtain ⟨hmem, hr2, hnf⟩ := ih s ks' rest hrest k hk2
              exact ⟨List.mem_cons_of_mem _ hmem, hr2, hnf⟩
        | arr xs =>
          rw [hv] at h
          simp only [] at h
          cases hrest : entriesAux f s ks' with
          | none => rw [hrest] at h; simp at h
          | some rest =>
            rw [hrest] at h
            simp only [Option.some.injEq] at h
            subst h
            simp only [List.map_cons, List.mem_cons] at hk
            cases hk with
            | inl hEq =>
              subst hEq
              refine ⟨List.mem_cons_self .., hr, ?_⟩
              intro id ar hc
              rw [hv] at hc
              exact SValue.noConfusion hc
            | inr hk2 =>
              obtain ⟨hmem, hr2, hnf⟩ := ih s ks' rest hrest k hk2
              exact ⟨List.mem_cons_of_mem _ hmem, hr2, hnf⟩
        | obj o =>
          rw [hv] at h
          simp only [] at h
          cases hrest : entriesAux f s ks' with
          | none => rw [hrest] at h; simp at h
          | some rest =>
            rw [hrest] at h
            simp only [Option.some.injEq] at h
            subst h
            simp only [List.map_cons, List.mem_cons] at hk
            cases hk with
            | inl hEq =>
              subst hEq
              refine ⟨List.mem_cons_self .., hr, ?_⟩
              intro id ar hc
              rw [hv] at hc
              exact SValue.noConfusion hc
            | inr hk2 =>
              obtain ⟨hmem, hr2, hnf⟩ := ih s ks' rest hrest k hk2
              exact ⟨List.mem_cons_of_mem _ hmem, hr2, hnf⟩
        | other =>
          rw [hv] at h
          simp only [] at h
          cases hrest : entriesAux f s ks' with
          | none => rw [hrest] at h; simp at h
          | some rest =>
            rw [hrest] at h
            simp only [Option.some.injEq] at h
            subst h
            simp only [List.map_cons, List.mem_cons] at hk
            cases hk with
            | inl hEq =>
              subst hEq
              refine ⟨List.mem_cons_self .., hr, ?_⟩
              intro id ar hc
              rw [hv] at hc
              exact SValue.noConfusion hc
            | inr hk2 =>
              obtain ⟨hmem, hr2, hnf⟩ := ih s ks' rest hrest k hk2
              exact ⟨List.mem_cons_of_mem _ hmem, hr2, hnf⟩
      · rw [if_neg hr] at h
        obtain ⟨hmem, hr2, hnf⟩ := ih s ks' out h k hk
        exact ⟨List.mem_cons_of_mem _ hmem, hr2, hnf⟩

/-- Claim C8: the `entries()` snapshot never contains a key whose stored value
is a still-unevaluated deferred producer, and never contains a key the caller
is not permitted to read; unreadable keys are silently omitted.  (`entriesAux`
takes no producer environment and returns no effects, so snapshotting cannot
force a producer.) -/
theorem entries_excludes_producers_and_unreadable
    (f : Nat) (s : Store) (out : List (String × JValue))
    (h : Store.entries f s = some out) :
    ∀ k, (k ∈ out.map Prod.fst →
            s.allowedToRead k = true ∧ ∀ id ar, s.getField k ≠ .fn id ar) ∧
         (s.allowedToRead k = false → k ∉ out.map Prod.fst) := by
  intro k
  constructor
  · intro hk
    obtain ⟨_, hr, hnf⟩ := entriesAux_mem f s (s.data.map Prod.fst) out h k hk
    exact ⟨hr, hnf⟩
  · intro hden hk
    obtain ⟨_, hr, _⟩ := entriesAux_mem f s (s.data.map Prod.fst) out h k hk
    rw [hden] at hr
    exact Bool.noConfusion hr

theorem entries_excludes_producers_and_unreadable_witness :
    Store.entries 5 sC8 = some [("a", .num 1)] ∧
    "secret" ∉ List.map Prod.fst [(("a" : String), JValue.num 1)] :=
  ⟨rfl, (entries_excludes_producers_and_unreadable 5 sC8 [("a", .num 1)] rfl "secret").2 rfl⟩

/-- Claim C9: permission enforcement precedes existence and type inspection —
when the resolved policy denies reading the first path segment, `read` fails
with the permission-denied (read) condition carrying that key, and returns the
store and effect log untouched, uniformly in the store's contents: the store
`s` is universally quantified and its stored value at the key is never
inspected, so the outcome is identical whether the key is absent or holds a
primitive, a node, or a producer. -/
theorem denied_read_uniform_error
    (env : Nat → SValue) (f : Nat) (p k : String) (rest : List String) (s : Store) (e : Eff)
    (hsplit : splitColon p = k :: rest)
    (hdeny : s.allowedToRead k = false) :
    Store.read env (f + 1) p s e = ⟨.error (.permissionDenied .read k), s, e⟩ := by
  simp only [Store.read, hsplit, run]
  rw [if_neg (by simp [hdeny])]

theorem denied_read_uniform_error_witness :
    Store.read env0 4 "x" sC9 e0 = ⟨.error (.permissionDenied .read "x"), sC9, e0⟩ :=
  denied_read_uniform_error env0 3 "x" "x" [] sC9 e0 rfl rfl

/-- Claim C10: every node the engine creates implicitly is a `new Store()`
with default policy `rw` and no declared annotations — the intermediate node
materialized by write resolution for an absent segment (regardless of the
policy of the node it is stored into), and the node produced by promoting a
plain JSON object; and on a node with default policy `rw` and no annotations,
every field is both readable and writable. -/
theorem implicit_nodes_default_rw
    (env : Nat → SValue) (f : Nat) (k : String) (s : Store) (e : Eff)
    (h1 : s.getField k = .undef)
    (h2 : s.allowedToRead k = true)
    (h3 : s.allowedToWrite k = true) :
    run env (f + 2) (.ensurePath [k] s) e =
      ⟨.ok .undef, s.withField k (.node emptyStore), e.newNode⟩ ∧
    emptyStore.defaultPolicy = .rw ∧ emptyStore.perms = [] ∧
    (∀ (f' : Nat) (props : List (String × JValue)) (e' : Eff),
      (run env f' (.convertPlainObjectToStore props) e').st.defaultPolicy = .rw ∧
      (run env f' (.convertPlainObjectToStore props) e').st.perms = []) ∧
    (∀ (k' : String) (d : List (String × SValue)),
      Store.allowedToRead (.mk .rw [] d) k' = true ∧
      Store.allowedToWrite (.mk .rw [] d) k' = true) := by
  refine ⟨?_, rfl, rfl, ?_, ?_⟩
  · have hnofn : ∀ id ar, s.getField k ≠ .fn id ar := by
      intro id ar hc
      rw [h1] at hc
      exact SValue.noConfusion hc
    simp only [run]
    rw [if_pos h2, evalProducerStep_not_fn env k s e hnofn]
    simp only []
    rw [h1]
    simp only []
    rw [if_pos h3, setFieldOp_ok k (.node emptyStore) s rfl]
    simp only []
    rw [withField_withField]
  · intro f' props e'
    exact (run_st_meta env f').2.2.2 props e'
  · intro k' d
    exact ⟨rfl, rfl⟩

theorem implicit_nodes_default_rw_witness :
    run env0 5 (.ensurePath ["k"] s0) e0 =
      ⟨.ok .undef, s0.withField "k" (.node emptyStore), e0.newNode⟩ ∧
    (run env0 9 (.convertPlainObjectToStore [("x", .num 1)]) e0).st.defaultPolicy = .rw ∧
    Store.allowedToRead (.mk .rw [] [("y", .num 2)]) "y" = true :=
  ⟨(implicit_nodes_default_rw env0 3 "k" s0 e0 rfl rfl rfl).1,
   ((implicit_nodes_default_rw env0 3 "k" s0 e0 rfl rfl rfl).2.2.2.1 9 [("x", .num 1)] e0).1,
   ((implicit_nodes_default_rw env0 3 "k" s0 e0 rfl rfl rfl).2.2.2.2 "y" [("y", .num 2)]).1⟩

end StoreTS
